import Mathlib

/-!
Verification of the goodstream repository's specification against its code.

The repository snapshot contains the test suite (src/src/tests/Main.ts), the
test-runner task (src/tasks/test.ts) and the array-filter installer
(src/apply/array/filter.js).  The core implementation file (src/Stream.ts) is
not part of the snapshot, so the Stream operations below are modelled from the
specification, cross-checked against the behaviour pinned by the repository's
own test suite.
-/

/-- Single error kind of the library (spec section 7): InvalidArgument. -/
inductive StreamError where
  | invalidArgument
deriving DecidableEq

/-- Modelled from the spec: the ascending loop of `Stream.range` in
src/Stream.ts (file absent from the snapshot): starting at `start`, yield the
cursor and advance it by `step` while the cursor is below `stop`.  The loop is
embedded with a fuel argument; `(stop - start).toNat` units of fuel suffice for
any step of at least 1, since the cursor then advances by at least 1 per
iteration. -/
def rangeAscAux (step : Int) : Nat → Int → Int → List Int
  | 0, _, _ => []
  | fuel + 1, start, stop =>
    if start < stop then start :: rangeAscAux step fuel (start + step) stop else []

/-- Modelled from the spec: ascending `Stream.range` loop with adequate fuel. -/
def rangeAsc (start stop step : Int) : List Int :=
  rangeAscAux step (stop - start).toNat start stop

/-- Modelled from the spec: the descending loop of `Stream.range` used when the
direction auto-reverses: starting at `hi`, yield the cursor and decrease it by
`step` while the cursor is above `lo`. -/
def rangeDescAux (step : Int) : Nat → Int → Int → List Int
  | 0, _, _ => []
  | fuel + 1, hi, lo =>
    if lo < hi then hi :: rangeDescAux step fuel (hi - step) lo else []

/-- Modelled from the spec: descending `Stream.range` loop with adequate fuel. -/
def rangeDesc (hi lo step : Int) : List Int :=
  rangeDescAux step (hi - lo).toNat hi lo

/-- Modelled from the spec: `Stream.range(start, stop, step)` of src/Stream.ts
(file absent from the snapshot).  A zero step raises InvalidArgument before any
element is produced (spec section 4.1, test line 144 of
src/src/tests/Main.ts).  With a positive step and `start ≤ stop` the range is
ascending from `start` (inclusive) to `stop` (exclusive).  When `stop < start`
the direction auto-reverses, and with a negative step the range runs from the
larger bound down to the smaller bound exclusive with the same stride magnitude
(tests at lines 136-151: `range(3,1) = [3,2]`, `range(0,6,-2) = [6,4,2]`). -/
def range3 (start stop step : Int) : Except StreamError (List Int) :=
  if step = 0 then .error .invalidArgument
  else if 0 < step then
    if start ≤ stop then .ok (rangeAsc start stop step)
    else .ok (rangeDesc start stop step)
  else .ok (rangeDesc (max start stop) (min start stop) (-step))

/-- Modelled from the spec: `Stream.range(start, stop)` with the default step. -/
def range2 (start stop : Int) : Except StreamError (List Int) :=
  range3 start stop 1

/-- Modelled from the spec: `Stream.range(stop)`: from 0 up to `stop`
exclusive. -/
def range1 (stop : Int) : Except StreamError (List Int) :=
  range3 0 stop 1

/-- Specification-side sequence: `n` consecutive integers counting up from
`start`. -/
def consecutive (start : Int) : Nat → List Int
  | 0 => []
  | n + 1 => start :: consecutive (start + 1) n

/-- Specification-side sequence: `n` consecutive integers counting down from
`start`. -/
def countdown (start : Int) : Nat → List Int
  | 0 => []
  | n + 1 => start :: countdown (start - 1) n

/-- Modelled from the spec: `Stream.take(count)` of src/Stream.ts (file absent
from the snapshot): InvalidArgument for a negative or non-integer count,
checked before any pull; otherwise at most `count` elements, clamped to the
stream length (spec section 4.1, tests at lines 231-253 of
src/src/tests/Main.ts).  The JavaScript number argument is modelled as a
rational. -/
def takeRun {α : Type} (count : ℚ) (l : List α) : Except StreamError (List α) :=
  if count < 0 ∨ count.isInt = false then .error .invalidArgument
  else .ok (l.take count.num.toNat)

/-- Modelled from the spec: `Stream.drop(count)`: InvalidArgument for a
negative or non-integer count, checked before any pull; otherwise skips
`count` elements (spec section 4.1, tests at lines 295-311). -/
def dropRun {α : Type} (count : ℚ) (l : List α) : Except StreamError (List α) :=
  if count < 0 ∨ count.isInt = false then .error .invalidArgument
  else .ok (l.drop count.num.toNat)

/-- Stride selection loop: skip `countdown` elements, then yield one and reset
the countdown to `k`.  With `k = stride - 1` this pre-skips `stride - 1`
elements before each yield. -/
def everyNthAux {α : Type} (k : Nat) : Nat → List α → List α
  | _, [] => []
  | 0, x :: xs => x :: everyNthAux k k xs
  | c + 1, _ :: xs => everyNthAux k c xs

/-- Elements at positions `stride - 1`, `2*stride - 1`, ... of the list. -/
def everyNth {α : Type} (stride : Nat) (l : List α) : List α :=
  everyNthAux (stride - 1) (stride - 1) l

/-- Modelled from the spec: `Stream.step(n)` of src/Stream.ts (file absent
from the snapshot): InvalidArgument for a zero or non-integer argument,
checked before any pull; for positive `n` it pre-skips `n-1` elements before
each yield; for negative `n` the remaining sequence is materialized, walked
backward, and the same stride magnitude is applied (spec section 4.1, tests at
lines 341-361: `range(5).step(2) = [1,3]`, `range(5).step(-2) = [3,1]`). -/
def stepRun {α : Type} (n : ℚ) (l : List α) : Except StreamError (List α) :=
  if n = 0 ∨ n.isInt = false then .error .invalidArgument
  else if 0 < n then .ok (everyNth n.num.toNat l)
  else .ok (everyNth (-n.num).toNat l.reverse)

/-- Modelled from the spec: `Stream.values(source, step?)` over a sequential
container: without a step the elements in order; with a step the selection and
reversal behaviour of `step` (tests at lines 57-77 of src/src/tests/Main.ts:
`values([1,2,3,4], 2) = [2,4]`, `values([1,2,3,4], -2) = [3,1]`, a decimal
step throws). -/
def valuesArr {α : Type} (l : List α) (stepArg : Option ℚ) : Except StreamError (List α) :=
  match stepArg with
  | none => .ok l
  | some q => stepRun q l

/-- Zero-based index resolution with negative indices counting from the end,
as JavaScript's `at` convention. -/
def jsIndex (len : Nat) (i : Int) : Int :=
  if i < 0 then (len : Int) + i else i

/-- Modelled from the spec: `Stream.at(index, orElse?)` of src/Stream.ts (file
absent from the snapshot): InvalidArgument for a non-integer index; negative
indices count from the end; when in range the element itself is returned, even
when it equals the missing sentinel; when out of range the fallback is invoked
and its result returned verbatim, or the missing sentinel is returned when no
fallback was supplied (spec section 4.1, tests at lines 729-765).  The host
language's missing sentinel (`undefined`) is threaded as the `undef`
argument. -/
def atRun {α : Type} (undef : α) (l : List α) (index : ℚ) (orElse : Option (Unit → α)) :
    Except StreamError α :=
  if index.isInt = false then .error .invalidArgument
  else if h : 0 ≤ jsIndex l.length index.num ∧ jsIndex l.length index.num < (l.length : Int)
  then .ok (l.get ⟨(jsIndex l.length index.num).toNat, by omega⟩)
  else .ok (match orElse with | some f => f () | none => undef)

/-- Modelled from the spec: draining `S.takeWhile(p)` over a shared parent
cursor.  Returns the pair (elements yielded by the child, elements the parent
still yields afterwards).  The boundary handling follows the repository's own
tests (src/src/tests/Main.ts lines 268-272 and 288-292): after draining
`range(5).takeWhile(v => v !== 3)` the parent still yields `[3, 4]`, so the
first element failing the predicate is examined but remains the parent's next
element. -/
def takeWhileRun {α : Type} (p : α → Bool) : List α → List α × List α
  | [] => ([], [])
  | x :: xs =>
    if p x then
      let r := takeWhileRun p xs
      (x :: r.1, r.2)
    else ([], x :: xs)

/-- Modelled from the spec: draining `S.takeUntil(p)`: takeWhile with the
negated predicate. -/
def takeUntilRun {α : Type} (p : α → Bool) (l : List α) : List α × List α :=
  takeWhileRun (fun v => !(p v)) l

/-- Alternative boundary semantics following the specification's words
(section 4.1): the element that first fails the continuation condition is
pulled from the parent and discarded, so later consumption of the parent
begins strictly after it.  Kept for comparison with `takeWhileRun`; the
repository's tests contradict this version. -/
def takeWhileDiscard {α : Type} (p : α → Bool) : List α → List α × List α
  | [] => ([], [])
  | x :: xs =>
    if p x then
      let r := takeWhileDiscard p xs
      (x :: r.1, r.2)
    else ([], xs)

/-- JavaScript values as far as `flatMap` inspects them: iterable containers
(arrays), text, and other non-iterable values (numbers). -/
inductive JVal where
  | num (n : Int)
  | str (s : String)
  | arr (xs : List JVal)

/-- Modelled from the spec: the per-element expansion of `Stream.flatMap`: an
iterable container that is not text yields its members in order; any other
value (including text) is yielded as a single item (spec section 4.1). -/
def flatMapExpand (v : JVal) : List JVal :=
  match v with
  | .arr xs => xs
  | v => [v]

/-- Modelled from the spec: draining `Stream.flatMap(fn?)` of src/Stream.ts
(file absent from the snapshot): each element is mapped through `fn` when
given (else used as is), and the result is expanded by `flatMapExpand` (tests
at lines 200-229 of src/src/tests/Main.ts). -/
def flatMapRun (fn : Option (JVal → JVal)) (l : List JVal) : List JVal :=
  (l.map (fun e => flatMapExpand (match fn with | some f => f e | none => e))).flatten

def fooS : String := "foo"

def barS : String := "bar"

def emptyS : String := ""

/-- Mapping function splitting a text value into its characters, as
`str => str.split("")` in the tests (line 214 of src/src/tests/Main.ts). -/
def splitChars (v : JVal) : JVal :=
  match v with
  | .str s => .arr (s.data.map (fun c => .str (String.mk [c])))
  | w => w

/-- JavaScript values as far as the array filter helpers inspect them:
undefined, null, booleans, numbers (with NaN separate), and text. -/
inductive JSV where
  | undef
  | jsnull
  | jsbool (b : Bool)
  | jsnum (q : ℚ)
  | nan
  | jsstr (s : String)
deriving DecidableEq

/-- JavaScript truthiness for `JSV`: undefined, null, false, 0, NaN and the
empty string are falsey; everything else is truthy. -/
def truthy : JSV → Bool
  | .undef => false
  | .jsnull => false
  | .nan => false
  | .jsbool b => b
  | .jsnum q => decide (q ≠ 0)
  | .jsstr s => decide (s ≠ emptyS)

/-- From src/apply/array/filter.js line 16: `filterNullish` keeps the elements
that are strictly neither `undefined` nor `null`. -/
def filterNullish (l : List JSV) : List JSV :=
  l.filter (fun v => decide (v ≠ .undef) && decide (v ≠ .jsnull))

/-- From src/apply/array/filter.js line 19: `filterFalsey` keeps, when
`removeZeroAndEmptyString` is set, the elements that are truthy (the element
itself is the predicate result), and otherwise the elements that are strictly
neither `undefined`, `null`, nor `false`. -/
def filterFalsey (removeZeroAndEmptyString : Bool) (l : List JSV) : List JSV :=
  l.filter (fun v =>
    if removeZeroAndEmptyString then truthy v
    else decide (v ≠ .undef) && decide (v ≠ .jsnull) && decide (v ≠ .jsbool false))

def exitErrorMessage : String := "Error code 1"

/-- From src/tasks/test.ts lines 18-21: the exit handler of the spawned test
runner rejects with the message above exactly when the exit code strictly
equals 1, and resolves otherwise; a `null` code (signal termination) is
modelled as `none`. -/
def exitHandler (code : Option Int) : Except String Unit :=
  if code = some 1 then .error exitErrorMessage else .ok ()

/-- Modelled from the spec: the shared state of a PartitionStream
(spec sections 3 and 4.2): the parent's remaining elements and the key →
buffer-of-elements mapping in first-seen-key insertion order. -/
structure PState (κ α : Type) where
  remaining : List α
  buffers : List (κ × List α)

/-- Append an element to the buffer of key `k`, creating the key's entry at
the end (first-seen order) when absent. -/
def bufAdd {κ α : Type} [DecidableEq κ] (k : κ) (x : α) :
    List (κ × List α) → List (κ × List α)
  | [] => [(k, [x])]
  | (c, xs) :: rest =>
    if c = k then (c, xs ++ [x]) :: rest else (c, xs) :: bufAdd k x rest

/-- Ensure the entry for key `k` exists (at the end when newly seen) without
adding any element. -/
def bufEnsure {κ α : Type} [DecidableEq κ] (k : κ) :
    List (κ × List α) → List (κ × List α)
  | [] => [(k, [])]
  | (c, xs) :: rest =>
    if c = k then (c, xs) :: rest else (c, xs) :: bufEnsure k rest

/-- Remove and return the first buffered element of key `k`, keeping the
key's (possibly emptied) entry in place. -/
def bufPop {κ α : Type} [DecidableEq κ] (k : κ) :
    List (κ × List α) → Option (α × List (κ × List α))
  | [] => none
  | (c, xs) :: rest =>
    if c = k then
      match xs with
      | [] => none
      | x :: tail => some (x, (c, tail) :: rest)
    else
      match bufPop k rest with
      | none => none
      | some (x, rest') => some (x, (c, xs) :: rest')

/-- Modelled from the spec: the pull loop of a partition sub-stream for key
`k` once its own buffer is empty: pull the shared parent, buffering each
newly pulled element under its own key, until an element tagged `k` appears
(delivered to the sub-stream, its key entry registered) or the parent is
exhausted (spec section 4.2). -/
def subPullLoop {κ α : Type} [DecidableEq κ] (keyFn : α → κ) (k : κ) :
    List α → List (κ × List α) → Option α × PState κ α
  | [], bufs => (none, ⟨[], bufs⟩)
  | x :: rest, bufs =>
    if keyFn x = k then (some x, ⟨rest, bufEnsure k bufs⟩)
    else subPullLoop keyFn k rest (bufAdd (keyFn x) x bufs)

/-- Modelled from the spec: one pull on the partition sub-stream of key `k`:
drain the key's own buffer first, then pull the shared parent. -/
def subNext {κ α : Type} [DecidableEq κ] (keyFn : α → κ) (k : κ) (s : PState κ α) :
    Option α × PState κ α :=
  match bufPop k s.buffers with
  | some (x, bufs') => (some x, ⟨s.remaining, bufs'⟩)
  | none => subPullLoop keyFn k s.remaining s.buffers

/-- An arbitrary interleaving of pulls on the sub-streams: each entry of the
trace names the key whose sub-stream is pulled once; returns all elements
yielded, in pull order, and the final shared state. -/
def runTrace {κ α : Type} [DecidableEq κ] (keyFn : α → κ) :
    List κ → PState κ α → List α × PState κ α
  | [], s => ([], s)
  | k :: ks, s =>
    let r := subNext keyFn k s
    let r2 := runTrace keyFn ks r.2
    (r.1.toList ++ r2.1, r2.2)

/-- All elements currently buffered, across all keys. -/
def bufsElems {κ α : Type} (bufs : List (κ × List α)) : List α :=
  (bufs.map Prod.snd).flatten

/-- All elements still held by the partition state: buffered ones plus the
parent's remaining ones. -/
def stateElems {κ α : Type} (s : PState κ α) : List α :=
  bufsElems s.buffers ++ s.remaining

/-- Fully draining the sub-stream of key `k`: repeated `subNext` until it
reports exhaustion.  Fuel-indexed; every yield consumes either a buffered
element or at least one parent element, so `remaining + buffered` elements of
fuel suffice. -/
def drainSubFuel {κ α : Type} [DecidableEq κ] (keyFn : α → κ) (k : κ) :
    Nat → PState κ α → List α × PState κ α
  | 0, s => ([], s)
  | fuel + 1, s =>
    match subNext keyFn k s with
    | (none, s') => ([], s')
    | (some x, s') =>
      let r := drainSubFuel keyFn k fuel s'
      (x :: r.1, r.2)

/-- Fully draining the sub-stream of key `k`, with adequate fuel. -/
def drainSub {κ α : Type} [DecidableEq κ] (keyFn : α → κ) (k : κ) (s : PState κ α) :
    List α × PState κ α :=
  drainSubFuel keyFn k (s.remaining.length + (bufsElems s.buffers).length) s

/-- Modelled from the spec: consuming `partitions()` as the tests do: walk the
key entries in first-seen order by index, fully draining each key's
sub-stream before moving on; when the enumeration catches up with the known
keys, pull the parent (possibly discovering new keys) until it is exhausted
(spec section 4.2, tests at lines 396-429 of src/src/tests/Main.ts).
Fuel-indexed; each step advances the key index or consumes a parent
element. -/
def partsFuel {κ α : Type} [DecidableEq κ] (keyFn : α → κ) :
    Nat → Nat → PState κ α → List (κ × List α) × PState κ α
  | 0, _, s => ([], s)
  | fuel + 1, i, s =>
    if h : i < s.buffers.length then
      let k := (s.buffers.get ⟨i, h⟩).1
      let r := drainSub keyFn k s
      let r2 := partsFuel keyFn fuel (i + 1) r.2
      ((k, r.1) :: r2.1, r2.2)
    else
      match s.remaining with
      | [] => ([], s)
      | x :: rest => partsFuel keyFn fuel i ⟨rest, bufAdd (keyFn x) x s.buffers⟩

/-- Consuming `partitions()` from a given state, with adequate fuel. -/
def partitionsRun {κ α : Type} [DecidableEq κ] (keyFn : α → κ) (s : PState κ α) :
    List (κ × List α) × PState κ α :=
  partsFuel keyFn (2 * s.remaining.length + s.buffers.length + 1) 0 s

theorem rangeAscAux_one_eq (n : Nat) : ∀ start : Int,
    rangeAscAux 1 n start (start + n) = consecutive start n := by
  induction n with
  | zero =>
    intro start
    simp [rangeAscAux, consecutive]
  | succ n ih =>
    intro start
    simp only [rangeAscAux, consecutive]
    rw [if_pos (by push_cast; omega)]
    have e : start + ((n + 1 : Nat) : Int) = (start + 1) + (n : Int) := by push_cast; ring
    rw [e]
    rw [ih (start + 1)]

theorem rangeDescAux_one_eq (n : Nat) : ∀ lo : Int,
    rangeDescAux 1 n (lo + n) lo = countdown (lo + n) n := by
  induction n with
  | zero =>
    intro lo
    simp [rangeDescAux, countdown]
  | succ n ih =>
    intro lo
    simp only [rangeDescAux, countdown]
    rw [if_pos (by push_cast; omega)]
    have e : lo + ((n + 1 : Nat) : Int) - 1 = lo + (n : Int) := by push_cast; ring
    rw [e]
    rw [ih lo]

/-- C3: `range(a)` yields 0 up to `a` exclusive, `range(a,b)` yields `a`
inclusive to `b` exclusive, the direction auto-reverses with default step -1
when `b < a`, `range(3,1)` yields exactly `[3,2]` and `range(0,6,-2)` yields
exactly `[6,4,2]`, in that order. -/
theorem range_spec :
    (∀ a : Int, 0 ≤ a → range1 a = .ok (consecutive 0 a.toNat)) ∧
    (∀ a b : Int, a ≤ b → range2 a b = .ok (consecutive a (b - a).toNat)) ∧
    (∀ a b : Int, b < a → range2 a b = .ok (countdown a (a - b).toNat)) ∧
    range2 3 1 = .ok [3, 2] ∧
    range3 0 6 (-2) = .ok [6, 4, 2] := by
  refine ⟨?_, ?_, ?_, ?_, ?_⟩
  · intro a ha
    have h := rangeAscAux_one_eq a.toNat 0
    rw [show (0 : Int) + (a.toNat : Int) = a by omega] at h
    simp only [range1, range3, rangeAsc]
    rw [if_neg (by omega), if_pos (by omega), if_pos ha]
    rw [show a - 0 = a by ring]
    rw [h]
  · intro a b hab
    have h := rangeAscAux_one_eq (b - a).toNat a
    rw [show a + ((b - a).toNat : Int) = b by omega] at h
    simp only [range2, range3, rangeAsc]
    rw [if_neg (by omega), if_pos (by omega), if_pos hab]
    rw [h]
  · intro a b hba
    have h := rangeDescAux_one_eq (a - b).toNat b
    rw [show b + ((a - b).toNat : Int) = a by omega] at h
    simp only [range2, range3, rangeDesc]
    rw [if_neg (by omega), if_pos (by omega), if_neg (by omega)]
    rw [h]
  · rfl
  · rfl

/-- Witness for C3 at concrete inputs. -/
theorem range_spec_witness :
    range1 4 = .ok [0, 1, 2, 3] ∧
    range2 2 5 = .ok [2, 3, 4] ∧
    range2 5 2 = .ok [5, 4, 3] :=
  ⟨(range_spec.1 4 (by omega)).trans (by rfl),
   (range_spec.2.1 2 5 (by omega)).trans (by rfl),
   (range_spec.2.2.1 5 2 (by omega)).trans (by rfl)⟩

/-- C4 counterexample: the claim states that errors arise exactly for bad
take/drop counts, bad step arguments and non-integer at indices, and that no
other input causes any operation to raise an error; but `range(0, 1, 0)`
raises InvalidArgument for its zero step (spec section 4.1, test at line 144
of src/src/tests/Main.ts), and `values([], 0.1)` raises for its non-integer
step (test at line 66), while a fractional step to `range` does not raise. -/
theorem invalid_argument_counterexample :
    range3 0 1 0 = .error .invalidArgument ∧
    valuesArr ([] : List Int) (some (mkRat 1 10)) = .error .invalidArgument := by
  constructor
  · rfl
  · have h : (mkRat 1 10).isInt = false := by decide
    simp [valuesArr, stepRun, h]

/-- C4 (amended): InvalidArgument is the single error kind, raised
synchronously before any element is pulled, for: a negative or non-integer
count given to take or drop, a zero or non-integer argument given to step
(also through the step argument of values over a sequential container), a
non-integer index given to at, and a zero step given to range; no other input
raises an error.  Each equivalence is independent of the stream's contents,
capturing that the check precedes any pull. -/
theorem invalid_argument_spec :
    (∀ (α : Type) (n : ℚ) (l : List α),
      takeRun n l = .error .invalidArgument ↔ n < 0 ∨ n.isInt = false) ∧
    (∀ (α : Type) (n : ℚ) (l : List α),
      dropRun n l = .error .invalidArgument ↔ n < 0 ∨ n.isInt = false) ∧
    (∀ (α : Type) (n : ℚ) (l : List α),
      stepRun n l = .error .invalidArgument ↔ n = 0 ∨ n.isInt = false) ∧
    (∀ (α : Type) (undef : α) (l : List α) (i : ℚ) (f : Option (Unit → α)),
      atRun undef l i f = .error .invalidArgument ↔ i.isInt = false) ∧
    (∀ a b s : Int, range3 a b s = .error .invalidArgument ↔ s = 0) ∧
    (∀ (α : Type) (l : List α) (q : ℚ),
      valuesArr l (some q) = .error .invalidArgument ↔ q = 0 ∨ q.isInt = false) ∧
    (∀ (α : Type) (l : List α), valuesArr l none = .ok l) := by
  refine ⟨?_, ?_, ?_, ?_, ?_, ?_, ?_⟩
  · intro α n l
    by_cases h : n < 0 ∨ n.isInt = false
    · simp [takeRun, h]
    · simp [takeRun, h]
  · intro α n l
    by_cases h : n < 0 ∨ n.isInt = false
    · simp [dropRun, h]
    · simp [dropRun, h]
  · intro α n l
    by_cases h : n = 0 ∨ n.isInt = false
    · simp [stepRun, h]
    · rw [stepRun, if_neg h]
      constructor
      · intro he
        split at he
        · exact Except.noConfusion he
        · exact Except.noConfusion he
      · intro hc
        exact absurd hc h
  · intro α u l i f
    by_cases h : i.isInt = false
    · simp [atRun, h]
    · rw [atRun.eq_def, if_neg h]
      constructor
      · intro he
        split at he
        · exact Except.noConfusion he
        · exact Except.noConfusion he
      · intro hc
        exact absurd hc h
  · intro a b s
    by_cases h : s = 0
    · simp [range3, h]
    · rw [range3, if_neg h]
      constructor
      · intro he
        split at he
        · split at he
          · exact Except.noConfusion he
          · exact Except.noConfusion he
        · exact Except.noConfusion he
      · intro hc
        exact absurd hc h
  · intro α l q
    by_cases h : q = 0 ∨ q.isInt = false
    · simp [valuesArr, stepRun, h]
    · show stepRun q l = .error .invalidArgument ↔ _
      rw [stepRun, if_neg h]
      constructor
      · intro he
        split at he
        · exact Except.noConfusion he
        · exact Except.noConfusion he
      · intro hc
        exact absurd hc h
  · intro α l
    rfl

/-- C5: `at(index, fallback)` resolves a negative index from the end, returns
the in-range element itself no matter what fallback is supplied (so an
in-range element whose value equals the missing sentinel is still returned),
invokes the fallback and returns its result verbatim only when the index is
out of range, and returns the missing sentinel when out of range with no
fallback. -/
theorem at_spec : ∀ (α : Type) (undef : α) (l : List α) (i : Int) (f : Option (Unit → α)),
    (∀ h : 0 ≤ jsIndex l.length i ∧ jsIndex l.length i < (l.length : Int),
      atRun undef l (i : ℚ) f = .ok (l.get ⟨(jsIndex l.length i).toNat, by omega⟩)) ∧
    (¬ (0 ≤ jsIndex l.length i ∧ jsIndex l.length i < (l.length : Int)) →
      (∀ g : Unit → α, atRun undef l (i : ℚ) (some g) = .ok (g ())) ∧
      atRun undef l (i : ℚ) none = .ok undef) := by
  intro α u l i f
  have hint : ((i : ℚ)).isInt = true := by
    simp [Rat.isInt]
  have hnum : ((i : ℚ)).num = i := Rat.num_intCast i
  constructor
  · intro h
    rw [atRun.eq_def]
    rw [if_neg (by simp [hint])]
    simp only [hnum]
    rw [dif_pos h]
  · intro h
    constructor
    · intro g
      rw [atRun.eq_def, if_neg (by simp [hint])]
      simp only [hnum]
      rw [dif_neg h]
    · rw [atRun.eq_def, if_neg (by simp [hint])]
      simp only [hnum]
      rw [dif_neg h]

/-- Witness for C5 at concrete inputs: an in-range element equal to the
sentinel is returned with the fallback ignored, a negative in-range index
counts from the end, an out-of-range index invokes the fallback, and an
out-of-range index without fallback returns the sentinel. -/
theorem at_spec_witness :
    atRun (none : Option Nat) [none, none, none] (0 : ℚ) (some (fun _ => some 10)) =
      .ok none ∧
    atRun (0 : Int) [10, 20, 30] ((-1 : Int) : ℚ) (some (fun _ => 13)) = .ok 30 ∧
    atRun (0 : Int) [10, 20, 30] ((5 : Int) : ℚ) (some (fun _ => 12)) = .ok 12 ∧
    atRun (0 : Int) [10, 20, 30] ((-5 : Int) : ℚ) none = .ok 0 := by
  refine ⟨?_, ?_, ?_, ?_⟩
  · exact ((at_spec (Option Nat) none [none, none, none] 0
      (some (fun _ => some 10))).1 (by decide)).trans (by rfl)
  · exact ((at_spec Int 0 [10, 20, 30] (-1)
      (some (fun _ => 13))).1 (by decide)).trans (by rfl)
  · exact (((at_spec Int 0 [10, 20, 30] 5
      (some (fun _ => 12))).2 (by decide)).1 (fun _ => 12))
  · exact (((at_spec Int 0 [10, 20, 30] (-5) none).2 (by decide)).2)

/-- C1 counterexample: the claim states that after draining
`range(5).takeWhile(v => v !== 3)` the first failing element (3) has been
discarded and later consumption of the parent begins strictly after it; the
repository's tests (src/src/tests/Main.ts lines 268-272 and 288-292) pin that
the parent still yields `[3, 4]`, so 3 is yielded to the next consumer.  The
discard semantics described by the claim would leave `[4]`. -/
theorem take_while_counterexample :
    (takeWhileRun (fun v : Nat => decide (v ≠ 3)) [0, 1, 2, 3, 4]).2 = [3, 4] ∧
    (takeUntilRun (fun v : Nat => decide (v = 3)) [0, 1, 2, 3, 4]).2 = [3, 4] ∧
    3 ∈ (takeWhileRun (fun v : Nat => decide (v ≠ 3)) [0, 1, 2, 3, 4]).2 ∧
    (takeWhileDiscard (fun v : Nat => decide (v ≠ 3)) [0, 1, 2, 3, 4]).2 = [4] := by
  refine ⟨rfl, rfl, by decide, rfl⟩

/-- C1 (amended): after a child `S.takeWhile(P)` (or `S.takeUntil(not P)`) is
drained, the first element that failed the continuation condition has been
pulled from the parent to test the predicate but is not lost: it remains the
parent's next element, is yielded to the next consumer of `S`, and further
consumption of `S` begins at (not strictly after) that element; when no
element fails, the parent is exhausted. -/
theorem take_while_boundary :
    (∀ (α : Type) (p : α → Bool) (pre : List α) (x : α) (post : List α),
      (∀ y ∈ pre, p y = true) → p x = false →
      takeWhileRun p (pre ++ x :: post) = (pre, x :: post)) ∧
    (∀ (α : Type) (q : α → Bool) (pre : List α) (x : α) (post : List α),
      (∀ y ∈ pre, q y = false) → q x = true →
      takeUntilRun q (pre ++ x :: post) = (pre, x :: post)) ∧
    (∀ (α : Type) (p : α → Bool) (l : List α),
      (∀ y ∈ l, p y = true) → takeWhileRun p l = (l, [])) := by
  have main : ∀ (α : Type) (p : α → Bool) (pre : List α) (x : α) (post : List α),
      (∀ y ∈ pre, p y = true) → p x = false →
      takeWhileRun p (pre ++ x :: post) = (pre, x :: post) := by
    intro α p pre x post
    induction pre with
    | nil =>
      intro _ hx
      simp [takeWhileRun, hx]
    | cons y ys ih =>
      intro hpre hx
      have hy : p y = true := hpre y (by simp)
      have ht := ih (fun z hz => hpre z (by simp [hz])) hx
      simp [takeWhileRun, hy, ht]
  refine ⟨main, ?_, ?_⟩
  · intro α q pre x post hpre hx
    exact main α (fun v => !(q v)) pre x post
      (fun y hy => by simp [hpre y hy]) (by simp [hx])
  · intro α p l
    induction l with
    | nil =>
      intro _
      rfl
    | cons y ys ih =>
      intro hl
      have hy : p y = true := hl y (by simp)
      have ht := ih (fun z hz => hl z (by simp [hz]))
      simp [takeWhileRun, hy, ht]

/-- Witness for C1's amended statement at the tests' concrete inputs. -/
theorem take_while_boundary_witness :
    takeWhileRun (fun v : Nat => decide (v ≠ 3)) [0, 1, 2, 3, 4] = ([0, 1, 2], [3, 4]) ∧
    takeUntilRun (fun v : Nat => decide (v = 3)) [0, 1, 2, 3, 4] = ([0, 1, 2], [3, 4]) ∧
    takeWhileRun (fun v : Nat => decide (v < 10)) [1, 2] = ([1, 2], []) :=
  ⟨take_while_boundary.1 Nat _ [0, 1, 2] 3 [4] (by decide) (by decide),
   take_while_boundary.2.1 Nat _ [0, 1, 2] 3 [4] (by decide) (by decide),
   take_while_boundary.2.2 Nat _ [1, 2] (by decide)⟩


/-- C7: `flatMap` (with or without a mapping function) yields the members of
each iterable non-text result in order, yields any other result as a single
item, and never decomposes text unless the mapping function itself returns
such a decomposition: every stream of arrays flattens to the concatenation of
their members, a stream of text values is left whole (also when the mapper
returns the text value itself), `of([0,0],[1,2],[2,4]).flatMap()` yields
`[0,0,1,2,2,4]`, `of("foo","bar").flatMap()` yields `["foo","bar"]`, and a
mapper that itself splits text yields the characters. -/
theorem flat_map_spec :
    (∀ ls : List (List JVal), flatMapRun none (ls.map JVal.arr) = ls.flatten) ∧
    (∀ l : List JVal, (∀ e ∈ l, ∃ s, e = JVal.str s) → flatMapRun none l = l) ∧
    (∀ l : List JVal, (∀ e ∈ l, ∃ s, e = JVal.str s) →
      flatMapRun (some (fun v => v)) l = l) ∧
    flatMapRun none
        [JVal.arr [JVal.num 0, JVal.num 0], JVal.arr [JVal.num 1, JVal.num 2],
         JVal.arr [JVal.num 2, JVal.num 4]] =
      [JVal.num 0, JVal.num 0, JVal.num 1, JVal.num 2, JVal.num 2, JVal.num 4] ∧
    flatMapRun none [JVal.str fooS, JVal.str barS] = [JVal.str fooS, JVal.str barS] ∧
    flatMapRun (some splitChars) [JVal.str fooS, JVal.str barS] =
      [JVal.str (String.mk ['f']), JVal.str (String.mk ['o']), JVal.str (String.mk ['o']),
       JVal.str (String.mk ['b']), JVal.str (String.mk ['a']), JVal.str (String.mk ['r'])] := by
  refine ⟨?_, ?_, ?_, ?_, ?_, ?_⟩
  · intro ls
    induction ls with
    | nil => rfl
    | cons a tl ih =>
      simp only [flatMapRun] at ih ⊢
      simp only [List.map_cons, List.flatten_cons]
      rw [ih]
      rfl
  · intro l
    induction l with
    | nil =>
      intro _
      rfl
    | cons e es ih =>
      intro hl
      obtain ⟨s, rfl⟩ := hl e (by simp)
      have ht := ih (fun z hz => hl z (by simp [hz]))
      simp only [flatMapRun] at ht ⊢
      simp only [List.map_cons, List.flatten_cons]
      rw [ht]
      rfl
  · intro l
    induction l with
    | nil =>
      intro _
      rfl
    | cons e es ih =>
      intro hl
      obtain ⟨s, rfl⟩ := hl e (by simp)
      have ht := ih (fun z hz => hl z (by simp [hz]))
      simp only [flatMapRun] at ht ⊢
      simp only [List.map_cons, List.flatten_cons]
      rw [ht]
      rfl
  · rfl
  · rfl
  · rfl

/-- Witness for C7's universally quantified parts at concrete inputs. -/
theorem flat_map_spec_witness :
    flatMapRun none [JVal.str fooS] = [JVal.str fooS] ∧
    flatMapRun (some (fun v => v)) [JVal.str barS] = [JVal.str barS] :=
  ⟨flat_map_spec.2.1 [JVal.str fooS] (fun e he => ⟨fooS, by simpa using he⟩),
   flat_map_spec.2.2.1 [JVal.str barS] (fun e he => ⟨barS, by simpa using he⟩)⟩

/-- C8: `filterNullish` keeps exactly the elements that are neither undefined
nor null, in original order (as a sublist of the input), and `filterFalsey`
with its default argument keeps exactly the elements that are not undefined,
not null and not false, in original order. -/
theorem filter_nullish_falsey_spec :
    ∀ (l : List JSV) (v : JSV),
      (v ∈ filterNullish l ↔ v ∈ l ∧ v ≠ .undef ∧ v ≠ .jsnull) ∧
      (filterNullish l).Sublist l ∧
      (v ∈ filterFalsey false l ↔ v ∈ l ∧ v ≠ .undef ∧ v ≠ .jsnull ∧ v ≠ .jsbool false) ∧
      (filterFalsey false l).Sublist l := by
  intro l v
  refine ⟨?_, ?_, ?_, ?_⟩
  · simp [filterNullish, List.mem_filter, and_assoc]
  · exact List.filter_sublist l
  · simp [filterFalsey, List.mem_filter, and_assoc]
  · exact List.filter_sublist l

/-- C9: `filterFalsey` with `removeZeroAndEmptyString = true` keeps exactly
the truthy elements in original order: it rejects precisely undefined, null,
false, 0, the empty string, and NaN — a broader filter than only adding 0 and
empty text to the default rejections. -/
theorem filter_falsey_truthy_spec :
    ∀ (l : List JSV) (v : JSV),
      (v ∈ filterFalsey true l ↔ v ∈ l ∧ truthy v = true) ∧
      (filterFalsey true l).Sublist l ∧
      (truthy v = false ↔
        v = .undef ∨ v = .jsnull ∨ v = .jsbool false ∨ v = .jsnum 0 ∨
        v = .jsstr emptyS ∨ v = .nan) ∧
      JSV.nan ∉ filterFalsey true l := by
  intro l v
  refine ⟨?_, ?_, ?_, ?_⟩
  · simp [filterFalsey, List.mem_filter]
  · exact List.filter_sublist l
  · cases v <;> simp [truthy]
  · simp [filterFalsey, List.mem_filter, truthy]

/-- C10: the test task's exit handler rejects exactly when the child process
exits with code 1, and resolves for every other exit code, including other
nonzero codes and null (signal termination). -/
theorem test_exit_spec :
    ∀ code : Option Int,
      (exitHandler code = .error exitErrorMessage ↔ code = some 1) ∧
      exitHandler none = .ok () ∧
      exitHandler (some 0) = .ok () ∧
      exitHandler (some 2) = .ok () ∧
      exitHandler (some (-1)) = .ok () := by
  intro code
  refine ⟨?_, rfl, rfl, rfl, rfl⟩
  by_cases h : code = some 1
  · simp [exitHandler, h]
  · simp [exitHandler, h]

theorem bufsElems_cons (c : κ) (xs : List α) (rest : List (κ × List α)) :
    bufsElems ((c, xs) :: rest) = xs ++ bufsElems rest := by
  simp [bufsElems]

theorem bufAdd_elems {κ α : Type} [DecidableEq κ] (k : κ) (x : α)
    (bufs : List (κ × List α)) :
    (bufsElems (bufAdd k x bufs)).Perm (x :: bufsElems bufs) := by
  induction bufs with
  | nil => simp [bufAdd, bufsElems]
  | cons p rest ih =>
    obtain ⟨c, xs⟩ := p
    by_cases h : c = k
    · simp only [bufAdd, if_pos h, bufsElems_cons]
      rw [List.append_assoc]
      exact List.perm_middle
    · simp only [bufAdd, if_neg h, bufsElems_cons]
      exact (ih.append_left xs).trans List.perm_middle

theorem bufEnsure_elems {κ α : Type} [DecidableEq κ] (k : κ)
    (bufs : List (κ × List α)) :
    bufsElems (bufEnsure k bufs) = bufsElems bufs := by
  induction bufs with
  | nil => simp [bufEnsure, bufsElems]
  | cons p rest ih =>
    obtain ⟨c, xs⟩ := p
    by_cases h : c = k
    · simp [bufEnsure, h, bufsElems_cons]
    · simp [bufEnsure, h, bufsElems_cons, ih]

theorem bufPop_elems {κ α : Type} [DecidableEq κ] (k : κ) :
    ∀ (bufs bufs' : List (κ × List α)) (x : α),
      bufPop k bufs = some (x, bufs') → (bufsElems bufs).Perm (x :: bufsElems bufs') := by
  intro bufs
  induction bufs with
  | nil =>
    intro bufs' x h
    exact Option.noConfusion h
  | cons p rest ih =>
    intro bufs' x h
    obtain ⟨c, xs⟩ := p
    by_cases hc : c = k
    · simp only [bufPop, if_pos hc] at h
      cases xs with
      | nil => exact Option.noConfusion h
      | cons y tail =>
        injection h with h1
        injection h1 with h2 h3
        subst h2
        subst h3
        simp [bufsElems_cons]
    · simp only [bufPop, if_neg hc] at h
      cases hpop : bufPop k rest with
      | none =>
        rw [hpop] at h
        exact Option.noConfusion h
      | some r =>
        obtain ⟨y, rest'⟩ := r
        rw [hpop] at h
        injection h with h1
        injection h1 with h2 h3
        subst h2
        subst h3
        simp only [bufsElems_cons]
        exact ((ih _ _ hpop).append_left xs).trans List.perm_middle

theorem subPullLoop_elems {κ α : Type} [DecidableEq κ] (keyFn : α → κ) (k : κ) :
    ∀ (rem : List α) (bufs : List (κ × List α)),
      ((subPullLoop keyFn k rem bufs).1.toList ++
        stateElems (subPullLoop keyFn k rem bufs).2).Perm (bufsElems bufs ++ rem) := by
  intro rem
  induction rem with
  | nil =>
    intro bufs
    simp only [subPullLoop, Option.toList_none, List.nil_append, stateElems]
    exact List.Perm.refl _
  | cons x rest ih =>
    intro bufs
    by_cases h : keyFn x = k
    · simp only [subPullLoop, if_pos h, Option.toList_some, stateElems, bufEnsure_elems]
      exact (@List.perm_middle α x (bufsElems bufs) rest).symm
    · simp only [subPullLoop, if_neg h]
      refine (ih (bufAdd (keyFn x) x bufs)).trans ?_
      refine ((bufAdd_elems (keyFn x) x bufs).append_right rest).trans ?_
      exact (@List.perm_middle α x (bufsElems bufs) rest).symm

theorem subNext_elems {κ α : Type} [DecidableEq κ] (keyFn : α → κ) (k : κ)
    (s : PState κ α) :
    ((subNext keyFn k s).1.toList ++ stateElems (subNext keyFn k s).2).Perm
      (stateElems s) := by
  unfold subNext
  cases hpop : bufPop k s.buffers with
  | none =>
    simp only
    exact subPullLoop_elems keyFn k s.remaining s.buffers
  | some r =>
    obtain ⟨x, bufs'⟩ := r
    simp only [Option.toList_some, stateElems]
    exact ((bufPop_elems k _ _ x hpop).symm.append_right s.remaining)

theorem runTrace_elems {κ α : Type} [DecidableEq κ] (keyFn : α → κ) :
    ∀ (trace : List κ) (s : PState κ α),
      ((runTrace keyFn trace s).1 ++ stateElems (runTrace keyFn trace s).2).Perm
        (stateElems s) := by
  intro trace
  induction trace with
  | nil =>
    intro s
    simp only [runTrace, List.nil_append]
    exact List.Perm.refl _
  | cons k ks ih =>
    intro s
    simp only [runTrace]
    rw [List.append_assoc]
    exact (List.Perm.append_left _ (ih (subNext keyFn k s).2)).trans
      (subNext_elems keyFn k s)

theorem subPullLoop_suffix {κ α : Type} [DecidableEq κ] (keyFn : α → κ) (k : κ) :
    ∀ (rem : List α) (bufs : List (κ × List α)),
      (subPullLoop keyFn k rem bufs).2.remaining <:+ rem := by
  intro rem
  induction rem with
  | nil =>
    intro bufs
    exact List.suffix_refl _
  | cons x rest ih =>
    intro bufs
    by_cases h : keyFn x = k
    · simp only [subPullLoop, if_pos h]
      exact (List.suffix_cons x rest)
    · simp only [subPullLoop, if_neg h]
      exact (ih (bufAdd (keyFn x) x bufs)).trans (List.suffix_cons x rest)

theorem subNext_suffix {κ α : Type} [DecidableEq κ] (keyFn : α → κ) (k : κ)
    (s : PState κ α) :
    (subNext keyFn k s).2.remaining <:+ s.remaining := by
  unfold subNext
  cases hpop : bufPop k s.buffers with
  | none =>
    simp only
    exact subPullLoop_suffix keyFn k s.remaining s.buffers
  | some r =>
    obtain ⟨x, bufs'⟩ := r
    exact List.suffix_refl _

theorem runTrace_suffix {κ α : Type} [DecidableEq κ] (keyFn : α → κ) :
    ∀ (trace : List κ) (s : PState κ α),
      (runTrace keyFn trace s).2.remaining <:+ s.remaining := by
  intro trace
  induction trace with
  | nil =>
    intro s
    exact List.suffix_refl _
  | cons k ks ih =>
    intro s
    simp only [runTrace]
    exact (ih (subNext keyFn k s).2).trans (subNext_suffix keyFn k s)

/-- C2: for every finite parent and key function, and every interleaving of
pulls across the partition's sub-streams, the elements yielded plus the
elements still held (buffered or not yet pulled) are a permutation of the
parent — each parent element is delivered at most once and none is
duplicated or lost; the parent is pulled at most once per element (its
remaining part is always a suffix of the original); and once the state holds
nothing, the total yield is a permutation of the parent, so its length equals
the parent's length and no element was yielded twice. -/
theorem partition_conservation {κ α : Type} [DecidableEq κ] (keyFn : α → κ)
    (trace : List κ) (parent : List α) :
    ((runTrace keyFn trace ⟨parent, []⟩).1 ++
      stateElems (runTrace keyFn trace ⟨parent, []⟩).2).Perm parent ∧
    (runTrace keyFn trace ⟨parent, []⟩).2.remaining <:+ parent ∧
    (stateElems (runTrace keyFn trace ⟨parent, []⟩).2 = [] →
      (runTrace keyFn trace ⟨parent, []⟩).1.Perm parent) := by
  have hs : stateElems (⟨parent, []⟩ : PState κ α) = parent := by
    simp [stateElems, bufsElems]
  have h1 := runTrace_elems keyFn trace (⟨parent, []⟩ : PState κ α)
  rw [hs] at h1
  refine ⟨h1, runTrace_suffix keyFn trace ⟨parent, []⟩, ?_⟩
  intro h0
  have h2 := h1
  rw [h0, List.append_nil] at h2
  exact h2

/-- Witness for C2: interleaved pulls on the two sub-streams of a parity
partition of `[0,1,2,3]` drain the state and yield a permutation of the
parent. -/
theorem partition_conservation_witness :
    (runTrace (fun n : Nat => n % 2) [0, 1, 0, 1, 0, 1] ⟨[0, 1, 2, 3], []⟩).1.Perm
      [0, 1, 2, 3] :=
  (partition_conservation (fun n : Nat => n % 2) [0, 1, 0, 1, 0, 1] [0, 1, 2, 3]).2.2
    (by decide)

theorem bufsElems_append (l1 l2 : List (κ × List α)) :
    bufsElems (l1 ++ l2) = bufsElems l1 ++ bufsElems l2 := by
  simp [bufsElems]

theorem bufPop_first_nil {κ α : Type} [DecidableEq κ] (k : κ) :
    ∀ pre : List (κ × List α), k ∉ pre.map Prod.fst →
      ∀ post : List (κ × List α), bufPop k (pre ++ (k, ([] : List α)) :: post) = none := by
  intro pre
  induction pre with
  | nil =>
    intro _ post
    simp [bufPop]
  | cons p ps ih =>
    intro hmem post
    obtain ⟨c, xs⟩ := p
    simp only [List.map_cons, List.mem_cons, not_or] at hmem
    have hck : ¬ (c = k) := fun h => hmem.1 h.symm
    simp [bufPop, hck, ih hmem.2 post]

theorem bufPop_first_cons {κ α : Type} [DecidableEq κ] (k : κ) :
    ∀ pre : List (κ × List α), k ∉ pre.map Prod.fst →
      ∀ (x : α) (t : List α) (post : List (κ × List α)),
        bufPop k (pre ++ (k, x :: t) :: post) = some (x, pre ++ (k, t) :: post) := by
  intro pre
  induction pre with
  | nil =>
    intro _ x t post
    simp [bufPop]
  | cons p ps ih =>
    intro hmem x t post
    obtain ⟨c, xs⟩ := p
    simp only [List.map_cons, List.mem_cons, not_or] at hmem
    have hck : ¬ (c = k) := fun h => hmem.1 h.symm
    simp [bufPop, hck, ih hmem.2 x t post]

theorem drainSubFuel_exhausted {κ α : Type} [DecidableEq κ] (keyFn : α → κ) (k : κ) :
    ∀ (xs : List α) (fuel : Nat) (pre post : List (κ × List α)),
      k ∉ pre.map Prod.fst → xs.length ≤ fuel →
      drainSubFuel keyFn k fuel ⟨[], pre ++ (k, xs) :: post⟩ =
        (xs, ⟨[], pre ++ (k, []) :: post⟩) := by
  intro xs
  induction xs with
  | nil =>
    intro fuel pre post hpre _
    cases fuel with
    | zero => rfl
    | succ f =>
      have hb := bufPop_first_nil k pre hpre post
      simp [drainSubFuel, subNext, hb, subPullLoop]
  | cons x t ih =>
    intro fuel pre post hpre hlen
    cases fuel with
    | zero =>
      simp at hlen
    | succ f =>
      have hlen' : t.length ≤ f := by
        simp at hlen
        omega
      have hb := bufPop_first_cons k pre hpre x t post
      have ihh := ih f pre post hpre hlen'
      simp [drainSubFuel, subNext, hb, ihh]

theorem drainSub_exhausted {κ α : Type} [DecidableEq κ] (keyFn : α → κ) (k : κ)
    (pre post : List (κ × List α)) (xs : List α) (hpre : k ∉ pre.map Prod.fst) :
    drainSub keyFn k ⟨[], pre ++ (k, xs) :: post⟩ = (xs, ⟨[], pre ++ (k, []) :: post⟩) := by
  unfold drainSub
  apply drainSubFuel_exhausted keyFn k xs _ pre post hpre
  simp only [bufsElems_append, bufsElems_cons, List.length_append]
  omega

theorem list_get_append_middle {β : Type} :
    ∀ (pre : List β) (a : β) (post : List β)
      (h : pre.length < (pre ++ a :: post).length),
      (pre ++ a :: post).get ⟨pre.length, h⟩ = a := by
  intro pre
  induction pre with
  | nil =>
    intro a post h
    rfl
  | cons p ps ih =>
    intro a post h
    exact ih a post (by simp only [List.length_append, List.length_cons]; omega)


theorem partsFuel_step_key {κ α : Type} [DecidableEq κ] (keyFn : α → κ) (f i : Nat)
    (rem : List α) (bufs : List (κ × List α)) (h : i < bufs.length) :
    partsFuel keyFn (f + 1) i ⟨rem, bufs⟩ =
      (((bufs.get ⟨i, h⟩).1,
        (drainSub keyFn (bufs.get ⟨i, h⟩).1 ⟨rem, bufs⟩).1) ::
          (partsFuel keyFn f (i + 1)
            (drainSub keyFn (bufs.get ⟨i, h⟩).1 ⟨rem, bufs⟩).2).1,
       (partsFuel keyFn f (i + 1)
         (drainSub keyFn (bufs.get ⟨i, h⟩).1 ⟨rem, bufs⟩).2).2) := by
  simp only [partsFuel]
  rw [dif_pos h]

theorem partsFuel_step_done {κ α : Type} [DecidableEq κ] (keyFn : α → κ) (f i : Nat)
    (bufs : List (κ × List α)) (h : ¬ i < bufs.length) :
    partsFuel keyFn (f + 1) i ⟨[], bufs⟩ = ([], ⟨[], bufs⟩) := by
  simp only [partsFuel]
  rw [dif_neg h]

theorem partsFuel_tail {κ α : Type} [DecidableEq κ] (keyFn : α → κ) :
    ∀ (post pre : List (κ × List α)) (fuel : Nat),
      ((pre ++ post).map Prod.fst).Nodup → post.length + 1 ≤ fuel →
      partsFuel keyFn fuel pre.length ⟨[], pre ++ post⟩ =
        (post, ⟨[], pre ++ post.map (fun p => (p.1, ([] : List α)))⟩) := by
  intro post
  induction post with
  | nil =>
    intro pre fuel _ hfuel
    cases fuel with
    | zero => simp at hfuel
    | succ f =>
      rw [List.append_nil, List.map_nil, List.append_nil]
      exact partsFuel_step_done keyFn f pre.length pre (by omega)
  | cons q post' ih =>
    intro pre fuel hnd hfuel
    obtain ⟨k, xs⟩ := q
    cases fuel with
    | zero => simp at hfuel
    | succ f =>
      have hlt : pre.length < (pre ++ (k, xs) :: post').length := by
        simp only [List.length_append, List.length_cons]
        omega
      have hknotpre : k ∉ pre.map Prod.fst := by
        have h2 : (pre.map Prod.fst ++ k :: post'.map Prod.fst).Nodup := by
          simpa using hnd
        have h3 := List.nodup_middle.mp h2
        have h4 := (List.nodup_cons.mp h3).1
        exact fun hm => h4 (List.mem_append_left _ hm)
      have hdrain := drainSub_exhausted keyFn k pre post' xs hknotpre
      have hnd' : (((pre ++ [(k, ([] : List α))]) ++ post').map Prod.fst).Nodup := by
        simpa using hnd
      have hf' : post'.length + 1 ≤ f := by
        simp at hfuel
        omega
      have hrec := ih (pre ++ [(k, ([] : List α))]) f hnd' hf'
      rw [partsFuel_step_key keyFn f pre.length [] (pre ++ (k, xs) :: post') hlt]
      rw [list_get_append_middle pre (k, xs) post' hlt]
      simp only [hdrain]
      rw [show pre ++ (k, ([] : List α)) :: post' = (pre ++ [(k, ([] : List α))]) ++ post' by
        simp]
      rw [show pre.length + 1 = (pre ++ [(k, ([] : List α))]).length by simp]
      rw [hrec]
      simp

/-- C6: `partitions()` yields (key, subStream) pairs in first-seen-key order,
and a key whose sub-stream was already partially or fully drained still
appears, its sub-stream yielding only the elements not already consumed.
In general, once the parent is exhausted, consuming `partitions()` yields
exactly the buffered entries — one pair per known key, in first-seen
(buffer insertion) order, with exactly the not-yet-consumed elements — and
concretely, on `range(10).partition(n => n % 3)`: after fully draining
`get(0)` the pairs are `[(0,[]),(1,[1,4,7]),(2,[2,5,8])]`; after consuming
only two elements of `get(0)` (`0` and `3`) the pairs are
`[(0,[6,9]),(1,[1,4,7]),(2,[2,5,8])]`; and with no prior consumption
`range(10).partition(n => n % 2)` gives `[(0,[0,2,4,6,8]),(1,[1,3,5,7,9])]`. -/
theorem partitions_spec :
    (∀ (κ α : Type) [DecidableEq κ] (keyFn : α → κ) (bufs : List (κ × List α)),
      (bufs.map Prod.fst).Nodup →
      partitionsRun keyFn ⟨[], bufs⟩ =
        (bufs, ⟨[], bufs.map (fun p => (p.1, ([] : List α)))⟩)) ∧
    (partitionsRun (fun n : Nat => n % 2) ⟨[0, 1, 2, 3, 4, 5, 6, 7, 8, 9], []⟩).1 =
      [(0, [0, 2, 4, 6, 8]), (1, [1, 3, 5, 7, 9])] ∧
    (drainSub (fun n : Nat => n % 3) 0 ⟨[0, 1, 2, 3, 4, 5, 6, 7, 8, 9], []⟩).1 =
      [0, 3, 6, 9] ∧
    (partitionsRun (fun n : Nat => n % 3)
        (drainSub (fun n : Nat => n % 3) 0 ⟨[0, 1, 2, 3, 4, 5, 6, 7, 8, 9], []⟩).2).1 =
      [(0, []), (1, [1, 4, 7]), (2, [2, 5, 8])] ∧
    (subNext (fun n : Nat => n % 3) 0 ⟨[0, 1, 2, 3, 4, 5, 6, 7, 8, 9], []⟩).1 = some 0 ∧
    (subNext (fun n : Nat => n % 3) 0
        (subNext (fun n : Nat => n % 3) 0 ⟨[0, 1, 2, 3, 4, 5, 6, 7, 8, 9], []⟩).2).1 =
      some 3 ∧
    (partitionsRun (fun n : Nat => n % 3)
        (subNext (fun n : Nat => n % 3) 0
          (subNext (fun n : Nat => n % 3) 0 ⟨[0, 1, 2, 3, 4, 5, 6, 7, 8, 9], []⟩).2).2).1 =
      [(0, [6, 9]), (1, [1, 4, 7]), (2, [2, 5, 8])] := by
  refine ⟨?_, by decide, by decide, by decide, by decide, by decide, by decide⟩
  intro κ α inst keyFn bufs hnd
  have h := partsFuel_tail keyFn bufs [] (bufs.length + 1) (by simpa using hnd) (by omega)
  simpa [partitionsRun] using h

/-- Witness for C6's general part: a state with an exhausted parent, one
partially drained key and one fresh key enumerates both keys in first-seen
order with their unconsumed elements. -/
theorem partitions_spec_witness :
    partitionsRun (fun n : Nat => n % 2) ⟨([] : List Nat), [(0, [7]), (1, [])]⟩ =
      ([(0, [7]), (1, [])], ⟨[], [(0, []), (1, [])]⟩) :=
  partitions_spec.1 Nat Nat (fun n => n % 2) [(0, [7]), (1, [])] (by decide)
